import Mathlib

/-!
Verification of the bounded-partitioning core of the zip-splitting tool
(`datamanager/cloud/split_large_zip/split_zip.py`).

The embedding models:
* `get_pages_by_documents` — grouping continuation pages to multi-page
  documents via `re.search(re.escape(name) + "_\\d+.jpg", x)`;
* `split_files` — the greedy single-pass partitioner over the metadata
  inventory, with the fixed overhead `Configs.start_size`, the byte
  ceiling `SIZE_LIMIT_IN_BYTES` and the member-count ceiling `PAGE_LIMIT`
  taken as parameters (the GUI variant stores them in `ZipUtils`);
* `process_split_file_one_archive` — filtering of the tab-separated
  split manifest.

Python dicts (`image_paths`, `latest_paths`) are modelled as ordered
association lists `List (String × Nat)` mapping a file name to its byte
size; dict-key uniqueness appears as `Nodup` hypotheses.  Fallible
code (`image_paths[image_name]`, a `KeyError` on a missing key) is
modelled with `Except`.
-/

namespace SplitZip

/-- Python `name.split(".")[-1]`: the part of the name after the last dot
(the whole name when it has no dot). -/
def extOf (name : String) : String :=
  ⟨((name.data.reverse.takeWhile (fun c => c != '.')).reverse)⟩

/-- The regex fragment `.jpg` (one arbitrary character, then the literal
letters `jpg`); Python's `.` matches any character except a newline. -/
def matchDotJpg (cs : List Char) : Bool :=
  match cs with
  | w :: x :: y :: z :: _ => w != '\n' && x == 'j' && y == 'p' && z == 'g'
  | _ => false

/-- The regex fragment `\d+.jpg`: one or more digits, then `.jpg`.
(`\d` is modelled as an ASCII digit.) -/
def matchDigitsThen (cs : List Char) : Bool :=
  match cs with
  | [] => false
  | c :: rest => c.isDigit && (matchDotJpg rest || matchDigitsThen rest)

/-- The regex fragment `_\d+.jpg`. -/
def matchUnderscoreNum (cs : List Char) : Bool :=
  match cs with
  | [] => false
  | c :: rest => c == '_' && matchDigitsThen rest

/-- Match of the whole pattern `re.escape(d) ++ "_\\d+.jpg"` at the start
of `cs` (the escaped document name is a literal). -/
def matchHere (d cs : List Char) : Bool :=
  d.isPrefixOf cs && matchUnderscoreNum (List.drop d.length cs)

/-- Search semantics of `re.search`: the pattern may match at any start position. -/
def searchPages (d : List Char) : List Char → Bool
  | [] => matchHere d []
  | c :: cs => matchHere d (c :: cs) || searchPages d cs

/-- Boolean form of `re.search(re.escape(document_name) + "_\\d+.jpg", x)`. -/
def pageSearch (document_name x : String) : Bool :=
  searchPages document_name.data x.data

/-- The multi-page container allow-list `("pdf", "tiff", "tif")`. -/
def PAGE_EXTENSIONS : List String := ["pdf", "tiff", "tif"]

/-- The continuation pages attached to one document: the entries of
`image_paths` whose name matches the page pattern, kept in enumeration
order, or none at all when the document's extension is not in the
allow-list. -/
def pagesOf (image_paths : List (String × Nat)) (document_name : String) :
    List (String × Nat) :=
  if extOf document_name ∈ PAGE_EXTENSIONS then
    image_paths.filter (fun p => pageSearch document_name p.1)
  else []

/-- Model of `get_pages_by_documents(latest_paths, image_paths)`: for every
document name (a key of `latest_paths`) the list of its continuation
pages. -/
def get_pages_by_documents (document_names image_paths : List (String × Nat)) :
    List (String × List (String × Nat)) :=
  document_names.map (fun p => (p.1, pagesOf image_paths p.1))

/-- Python dict lookup `m[k]` on the association-list model, `none` being
a `KeyError`. -/
def dictGet (m : List (String × Nat)) (k : String) : Option Nat :=
  (m.find? (fun p => p.1 == k)).map (fun p => p.2)

/-- Total byte size of a list of files. -/
def sumSizes (l : List (String × Nat)) : Nat := (l.map (fun p => p.2)).sum

/-- The total size a document contributes in the loop of `split_files`:
its primary image file, its metadata file, and all its continuation
pages. -/
def total_size (image_paths latest_paths : List (String × Nat)) (n : String) : Nat :=
  (dictGet image_paths n).getD 0 + (dictGet latest_paths n).getD 0 +
    sumSizes (pagesOf image_paths n)

/-- The three numeric parameters of the partitioner: the byte ceiling
`SIZE_LIMIT_IN_BYTES`, the member-count ceiling `PAGE_LIMIT`, and the
fixed overhead `Configs.start_size` (schema + split-manifest sizes). -/
structure SplitConfig where
  size_limit_in_bytes : Nat
  page_limit : Nat
  start_size : Nat
deriving Repr, DecidableEq

/-- The mutable loop state of `split_files`: the open partition
`image_names`, the running accumulator `current_size`, the 1-based
`archive_count`, and the partitions already written by
`create_archive` (a side effect in the source, accumulated here). -/
structure SplitState where
  image_names : List String
  current_size : Nat
  archive_count : Nat
  archives : List (List String)
deriving Repr, DecidableEq

/-- One iteration of the loop body of `split_files`, after the size of
the current document has been computed. -/
def splitStep (cfg : SplitConfig) (st : SplitState) (image_name : String)
    (size : Nat) : SplitState :=
  let current := st.current_size + size
  if current < cfg.size_limit_in_bytes ∧ st.image_names.length < cfg.page_limit then
    { st with image_names := st.image_names ++ [image_name], current_size := current }
  else
    { image_names := [image_name],
      current_size := cfg.start_size + size,
      archive_count := st.archive_count + 1,
      archives := st.archives ++ [st.image_names] }

/-- The loop `for image_name in latest_paths:` of `split_files`.  A
missing primary file (`image_paths[image_name]`) is the `KeyError` of
the source and yields `.error`. -/
def splitFold (cfg : SplitConfig) (image_paths : List (String × Nat)) :
    List (String × Nat) → SplitState → Except String SplitState
  | [], st => .ok st
  | (image_name, latest_size) :: rest, st =>
    match dictGet image_paths image_name with
    | none => .error image_name
    | some image_size =>
      let size := image_size + latest_size + sumSizes (pagesOf image_paths image_name)
      splitFold cfg image_paths rest (splitStep cfg st image_name size)

/-- The state at the top of `split_files`: no document assigned yet and
`current_size = Configs.start_size`. -/
def initState (cfg : SplitConfig) : SplitState :=
  { image_names := [], current_size := cfg.start_size, archive_count := 1, archives := [] }

/-- Model of `split_files(images_path, latest_path, ...)`: the ordered list of
emitted partitions (each the document-name list handed to
`create_archive`), the trailing `create_archive` call included. -/
def split_files (cfg : SplitConfig) (image_paths latest_paths : List (String × Nat)) :
    Except String (List (List String)) :=
  (splitFold cfg image_paths latest_paths (initState cfg)).map
    (fun st => st.archives ++ [st.image_names])

/-- The split manifest: the verbatim header row and the data rows, each a
`(document_name, subset_label)` pair. -/
structure SplitManifest where
  header : List String
  rows : List (String × String)
deriving Repr, DecidableEq

/-- Model of `process_split_file_one_archive(images, suffix)`: copy the header,
then keep exactly the rows whose `row[0]` is in `images`, appending them
in reading order. -/
def process_split_file_one_archive (images : List String) (m : SplitManifest) :
    SplitManifest :=
  { header := m.header,
    rows := m.rows.foldl (fun acc row => if row.1 ∈ images then acc ++ [row] else acc) [] }

/-- The numeric value of a digit run. -/
def digitsToNat (ds : List Char) : Nat :=
  ds.foldl (fun n c => 10 * n + (c.toNat - 48)) 0

/-- The page number encoded in a page file name: the digit run after
`<document-name>_`. -/
def pageNumOf (document_name x : String) : Nat :=
  digitsToNat ((x.data.drop (document_name.data.length + 1)).takeWhile Char.isDigit)

/-- Modelled from the spec: the claim's anchored page-name shape — the
file name is exactly the document name, an underscore, a nonempty page
number, and the literal extension `.jpg`. -/
def SpecExactPageName (document_name x : String) : Prop :=
  ∃ ds : List Char, ds ≠ [] ∧ (∀ c ∈ ds, c.isDigit = true) ∧
    x.data = document_name.data ++ '_' :: (ds ++ ['.', 'j', 'p', 'g'])

/-- What `re.search` actually accepts: the document name, an underscore,
a nonempty digit run, one further character and the letters `jpg` occur
somewhere inside the file name — extra leading and trailing characters
are allowed. -/
def PageMatch (document_name x : String) : Prop :=
  ∃ pre ds a suf, x.data =
      pre ++ document_name.data ++ '_' :: (ds ++ a :: 'j' :: 'p' :: 'g' :: suf) ∧
    ds ≠ [] ∧ (∀ c ∈ ds, c.isDigit = true) ∧ a ≠ '\n'

/-- Agreement of `isPrefixOf` with the existence of a completing tail. -/
lemma isPrefixOf_iff_append (d : List Char) :
    ∀ cs, d.isPrefixOf cs = true ↔ ∃ t, cs = d ++ t := by
  induction d with
  | nil => intro cs; simp [List.isPrefixOf]
  | cons a as ih =>
    intro cs
    cases cs with
    | nil => simp [List.isPrefixOf]
    | cons b bs =>
      simp only [List.isPrefixOf, Bool.and_eq_true, beq_iff_eq, List.cons_append,
        List.cons.injEq, ih bs]
      constructor
      · rintro ⟨rfl, t, rfl⟩
        exact ⟨t, rfl, rfl⟩
      · rintro ⟨t, rfl, rfl⟩
        exact ⟨rfl, t, rfl⟩

/-- Shape of the strings accepted by `matchDotJpg`. -/
lemma matchDotJpg_iff (cs : List Char) :
    matchDotJpg cs = true ↔ ∃ a suf, cs = a :: 'j' :: 'p' :: 'g' :: suf ∧ a ≠ '\n' := by
  constructor
  · intro h
    rcases cs with _ | ⟨w, _ | ⟨x, _ | ⟨y, _ | ⟨z, rest⟩⟩⟩⟩ <;>
      simp [matchDotJpg, Bool.and_eq_true, bne_iff_ne, beq_iff_eq] at h
    obtain ⟨⟨⟨hw, hx⟩, hy⟩, hz⟩ := h
    subst hx
    subst hy
    subst hz
    exact ⟨w, rest, rfl, hw⟩
  · rintro ⟨a, suf, rfl, ha⟩
    simp [matchDotJpg, bne_iff_ne, ha]

/-- Shape of the strings accepted by `matchDigitsThen`: a nonempty digit
run, an arbitrary non-newline character, the letters `jpg`, anything
after. -/
lemma matchDigitsThen_iff (cs : List Char) :
    matchDigitsThen cs = true ↔
      ∃ ds a suf, cs = ds ++ a :: 'j' :: 'p' :: 'g' :: suf ∧ ds ≠ [] ∧
        (∀ c ∈ ds, c.isDigit = true) ∧ a ≠ '\n' := by
  induction cs with
  | nil =>
    constructor
    · intro h
      simp [matchDigitsThen] at h
    · rintro ⟨ds, a, suf, h, hne, -, -⟩
      cases ds with
      | nil => exact absurd rfl hne
      | cons d0 ds' => simp at h
  | cons c rest ih =>
    constructor
    · intro h
      simp only [matchDigitsThen, Bool.and_eq_true, Bool.or_eq_true] at h
      obtain ⟨hc, hjpg | hmore⟩ := h
      · obtain ⟨a, suf, rfl, ha⟩ := (matchDotJpg_iff rest).mp hjpg
        exact ⟨[c], a, suf, rfl, by simp, by simpa using hc, ha⟩
      · obtain ⟨ds, a, suf, rfl, hne, hdig, ha⟩ := ih.mp hmore
        refine ⟨c :: ds, a, suf, rfl, by simp, ?_, ha⟩
        intro x hx
        rcases List.mem_cons.mp hx with rfl | hx
        · exact hc
        · exact hdig x hx
    · rintro ⟨ds, a, suf, h, hne, hdig, ha⟩
      cases ds with
      | nil => exact absurd rfl hne
      | cons d0 ds' =>
        rw [List.cons_append] at h
        injection h with h1 h2
        subst h1
        subst h2
        simp only [matchDigitsThen, Bool.and_eq_true, Bool.or_eq_true]
        refine ⟨hdig c (List.mem_cons_self c ds'), ?_⟩
        cases ds' with
        | nil =>
          left
          exact (matchDotJpg_iff _).mpr ⟨a, suf, by simp, ha⟩
        | cons e es =>
          right
          refine ih.mpr ⟨e :: es, a, suf, by simp, by simp, ?_, ha⟩
          intro x hx
          exact hdig x (List.mem_cons_of_mem _ hx)

/-- Shape of the strings accepted by `matchUnderscoreNum`. -/
lemma matchUnderscoreNum_iff (cs : List Char) :
    matchUnderscoreNum cs = true ↔
      ∃ rest, cs = '_' :: rest ∧ matchDigitsThen rest = true := by
  cases cs with
  | nil => simp [matchUnderscoreNum]
  | cons c rest =>
    constructor
    · intro h
      simp only [matchUnderscoreNum, Bool.and_eq_true, beq_iff_eq] at h
      exact ⟨rest, by rw [h.1], h.2⟩
    · rintro ⟨r, heq, hm⟩
      injection heq with h1 h2
      subst h1
      subst h2
      simp [matchUnderscoreNum, hm]

/-- Anchored match at the start of `cs`: `cs` begins with the document
name, an underscore, and a `matchDigitsThen` tail. -/
lemma matchHere_iff (d cs : List Char) :
    matchHere d cs = true ↔
      ∃ rest, cs = d ++ '_' :: rest ∧ matchDigitsThen rest = true := by
  unfold matchHere
  rw [Bool.and_eq_true]
  constructor
  · rintro ⟨hp, hu⟩
    obtain ⟨t, rfl⟩ := (isPrefixOf_iff_append d _).mp hp
    rw [List.drop_left] at hu
    obtain ⟨rest, rfl, hm⟩ := (matchUnderscoreNum_iff t).mp hu
    exact ⟨rest, rfl, hm⟩
  · rintro ⟨rest, rfl, hm⟩
    refine ⟨(isPrefixOf_iff_append d _).mpr ⟨_, rfl⟩, ?_⟩
    rw [List.drop_left]
    exact (matchUnderscoreNum_iff _).mpr ⟨rest, rfl, hm⟩

/-- Search semantics of the page pattern: a match may start at any
position. -/
lemma searchPages_iff (d : List Char) (x : List Char) :
    searchPages d x = true ↔
      ∃ pre rest, x = pre ++ d ++ '_' :: rest ∧ matchDigitsThen rest = true := by
  induction x with
  | nil =>
    constructor
    · intro h
      obtain ⟨rest, habs, -⟩ := (matchHere_iff d []).mp h
      simp at habs
    · rintro ⟨pre, rest, habs, -⟩
      simp at habs
  | cons c cs ih =>
    simp only [searchPages, Bool.or_eq_true]
    constructor
    · rintro (h | h)
      · obtain ⟨rest, heq, hm⟩ := (matchHere_iff _ _).mp h
        exact ⟨[], rest, by simpa using heq, hm⟩
      · obtain ⟨pre, rest, heq, hm⟩ := ih.mp h
        exact ⟨c :: pre, rest, by simp [heq], hm⟩
    · rintro ⟨pre, rest, heq, hm⟩
      cases pre with
      | nil =>
        left
        exact (matchHere_iff _ _).mpr ⟨rest, by simpa using heq, hm⟩
      | cons p ps =>
        right
        rw [List.cons_append, List.cons_append] at heq
        injection heq with h1 h2
        exact ih.mpr ⟨ps, rest, by simpa using h2, hm⟩

/-- The page pattern, fully characterised: `pageSearch` accepts exactly
the file names that contain the document name, an underscore, a nonempty
digit run, one further character and `jpg`, with arbitrary material on
both sides. -/
lemma pageSearch_iff (document_name x : String) :
    pageSearch document_name x = true ↔ PageMatch document_name x := by
  unfold pageSearch PageMatch
  rw [searchPages_iff]
  constructor
  · rintro ⟨pre, rest, heq, hm⟩
    obtain ⟨ds, a, suf, rfl, hne, hdig, ha⟩ := (matchDigitsThen_iff rest).mp hm
    exact ⟨pre, ds, a, suf, heq, hne, hdig, ha⟩
  · rintro ⟨pre, ds, a, suf, heq, hne, hdig, ha⟩
    exact ⟨pre, ds ++ a :: 'j' :: 'p' :: 'g' :: suf, heq,
      (matchDigitsThen_iff _).mpr ⟨ds, a, suf, rfl, hne, hdig, ha⟩⟩

/-- Any accepted file name is at least six characters longer than the
document name. -/
lemma pageSearch_length_le {d x : String} (h : pageSearch d x = true) :
    d.data.length + 6 ≤ x.data.length := by
  obtain ⟨pre, ds, a, suf, heq, hne, -, -⟩ := (pageSearch_iff d x).mp h
  have h1 : 1 ≤ ds.length := List.length_pos.mpr hne
  rw [heq]
  simp only [List.length_append, List.length_cons]
  omega

/-- A document name never matches the page pattern against itself. -/
lemma pageSearch_self (d : String) : pageSearch d d = false := by
  by_contra h
  rw [Bool.not_eq_false] at h
  have := pageSearch_length_le h
  omega

/-- A single primary file named like the document itself yields no
continuation pages. -/
lemma pagesOf_single_self (name : String) (isize : Nat) :
    pagesOf [(name, isize)] name = [] := by
  unfold pagesOf
  split
  · simp [List.filter_cons, pageSearch_self]
  · rfl

/-- Dict lookup on an association list with distinct keys returns the
stored value. -/
lemma dictGet_eq_of_nodup {m : List (String × Nat)} {k : String} {v : Nat}
    (hnd : (m.map Prod.fst).Nodup) (hmem : (k, v) ∈ m) :
    dictGet m k = some v := by
  induction m with
  | nil => cases hmem
  | cons p rest ih =>
    rw [List.map_cons, List.nodup_cons] at hnd
    obtain ⟨hk0, hnd'⟩ := hnd
    rcases List.mem_cons.mp hmem with heq | hmem'
    · subst heq
      unfold dictGet
      rw [List.find?_cons_of_pos _ (by simp)]
      rfl
    · have hne : (p.1 == k) = false := by
        rw [beq_eq_false_iff_ne]
        intro h
        exact hk0 (h ▸ List.mem_map.mpr ⟨(k, v), hmem', rfl⟩)
      unfold dictGet at ih ⊢
      rw [List.find?_cons_of_neg _ (by simp [hne])]
      exact ih hnd' hmem'

/-- The loop invariant of `split_files` after some prefix `processed` of
the inventory has been consumed: the accumulator equals the overhead
plus the sizes of the open partition, an open partition of two or more
documents is within the byte ceiling, partition lengths respect a
positive count ceiling, and the partitions emitted so far followed by
the open one enumerate `processed` exactly. -/
structure SplitInv (cfg : SplitConfig) (image_paths latest_paths : List (String × Nat))
    (processed : List String) (st : SplitState) : Prop where
  size_eq : st.current_size =
    cfg.start_size + (st.image_names.map (total_size image_paths latest_paths)).sum
  open_lt : 2 ≤ st.image_names.length → st.current_size < cfg.size_limit_in_bytes
  open_len : 1 ≤ cfg.page_limit → st.image_names.length ≤ cfg.page_limit
  cover : st.archives.flatten ++ st.image_names = processed
  arch_lt : ∀ p ∈ st.archives, 2 ≤ p.length →
    cfg.start_size + (p.map (total_size image_paths latest_paths)).sum <
      cfg.size_limit_in_bytes
  arch_len : ∀ p ∈ st.archives, 1 ≤ cfg.page_limit → p.length ≤ cfg.page_limit

/-- One loop iteration preserves the invariant. -/
lemma splitStep_inv {cfg : SplitConfig} {image_paths latest_paths : List (String × Nat)}
    {processed : List String} {st : SplitState} {n : String} {isize l : Nat}
    (hinv : SplitInv cfg image_paths latest_paths processed st)
    (hi : dictGet image_paths n = some isize)
    (hl : dictGet latest_paths n = some l) :
    SplitInv cfg image_paths latest_paths (processed ++ [n])
      (splitStep cfg st n (isize + l + sumSizes (pagesOf image_paths n))) := by
  have htot : total_size image_paths latest_paths n =
      isize + l + sumSizes (pagesOf image_paths n) := by
    unfold total_size
    rw [hi, hl]
    rfl
  unfold splitStep
  by_cases hcond : st.current_size + (isize + l + sumSizes (pagesOf image_paths n)) <
      cfg.size_limit_in_bytes ∧ st.image_names.length < cfg.page_limit
  · rw [if_pos hcond]
    refine ⟨?_, ?_, ?_, ?_, hinv.arch_lt, hinv.arch_len⟩
    · have hse := hinv.size_eq
      simp only [List.map_append, List.sum_append, List.map_cons, List.map_nil,
        List.sum_cons, List.sum_nil, htot]
      omega
    · intro _
      exact hcond.1
    · intro _
      have := hcond.2
      simp only [List.length_append, List.length_cons, List.length_nil]
      omega
    · rw [← List.append_assoc, hinv.cover]
  · rw [if_neg hcond]
    refine ⟨?_, ?_, ?_, ?_, ?_, ?_⟩
    · simp [htot]
    · intro habs
      simp at habs
    · intro h1
      simpa using h1
    · rw [List.flatten_append]
      simp only [List.flatten_cons, List.flatten_nil, List.append_nil]
      rw [hinv.cover]
    · intro p hp h2
      rcases List.mem_append.mp hp with hold | hnew
      · exact hinv.arch_lt p hold h2
      · have hpeq : p = st.image_names := by simpa using hnew
        subst hpeq
        have := hinv.open_lt h2
        have hse := hinv.size_eq
        omega
    · intro p hp h1
      rcases List.mem_append.mp hp with hold | hnew
      · exact hinv.arch_len p hold h1
      · have hpeq : p = st.image_names := by simpa using hnew
        subst hpeq
        exact hinv.open_len h1

/-- Running the loop over any remaining entry list preserves the
invariant, extending `processed` by the names consumed. -/
lemma splitFold_inv {cfg : SplitConfig} {image_paths latest_paths : List (String × Nat)} :
    ∀ (rest : List (String × Nat)) (processed : List String) (st st' : SplitState),
      (∀ p ∈ rest, dictGet latest_paths p.1 = some p.2) →
      SplitInv cfg image_paths latest_paths processed st →
      splitFold cfg image_paths rest st = .ok st' →
      SplitInv cfg image_paths latest_paths (processed ++ rest.map Prod.fst) st' := by
  intro rest
  induction rest with
  | nil =>
    intro processed st st' _ hinv hok
    simp only [splitFold, Except.ok.injEq] at hok
    subst hok
    simpa using hinv
  | cons q rest ih =>
    intro processed st st' hkeys hinv hok
    obtain ⟨n, l⟩ := q
    cases hi : dictGet image_paths n with
    | none =>
      simp only [splitFold, hi] at hok
      simp at hok
    | some isize =>
      simp only [splitFold, hi] at hok
      have hstep := splitStep_inv hinv hi (hkeys (n, l) (List.mem_cons_self _ _))
      have h2 := ih (processed ++ [n]) _ st'
        (fun p hp => hkeys p (List.mem_cons_of_mem _ hp)) hstep hok
      simpa [List.append_assoc] using h2

/-- The invariant holds at the top of `split_files`. -/
lemma splitInv_init (cfg : SplitConfig) (image_paths latest_paths : List (String × Nat)) :
    SplitInv cfg image_paths latest_paths [] (initState cfg) := by
  constructor <;> simp [initState]

/-- A successful run of `split_files` reaches a final state satisfying
the invariant over the whole inventory, and the emitted partitions are
the closed archives followed by the final open one. -/
lemma split_files_state {cfg : SplitConfig} {image_paths latest_paths : List (String × Nat)}
    {parts : List (List String)}
    (hnd : (latest_paths.map Prod.fst).Nodup)
    (hok : split_files cfg image_paths latest_paths = .ok parts) :
    ∃ st, SplitInv cfg image_paths latest_paths (latest_paths.map Prod.fst) st ∧
      parts = st.archives ++ [st.image_names] := by
  unfold split_files at hok
  cases hfold : splitFold cfg image_paths latest_paths (initState cfg) with
  | error e =>
    rw [hfold] at hok
    cases hok
  | ok st =>
    rw [hfold] at hok
    refine ⟨st, ?_, ?_⟩
    · have hInv := splitFold_inv latest_paths [] (initState cfg) st
        (fun p hp => dictGet_eq_of_nodup hnd hp)
        (splitInv_init cfg image_paths latest_paths) hfold
      simpa using hInv
    · simp only [Except.map, Except.ok.injEq] at hok
      exact hok.symm

/-- A list of lists whose flattening holds `d` exactly once has exactly
one member list containing `d`. -/
lemma countP_mem_eq_one_of_flatten_count {d : String} :
    ∀ (parts : List (List String)), (parts.map (List.count d)).sum = 1 →
      parts.countP (fun p => decide (d ∈ p)) = 1 := by
  intro parts
  induction parts with
  | nil =>
    intro h
    simp at h
  | cons p ps ih =>
    intro h
    simp only [List.map_cons, List.sum_cons] at h
    by_cases hd : d ∈ p
    · have h1 : List.count d p ≠ 0 := by
        rw [Ne, List.count_eq_zero]
        exact fun habs => habs hd
      have hzero : (ps.map (List.count d)).sum = 0 := by omega
      have hnone : ps.countP (fun q => decide (d ∈ q)) = 0 := by
        rw [List.countP_eq_zero]
        intro q hq
        have hq0 := List.sum_eq_zero_iff.mp hzero (List.count d q)
          (List.mem_map_of_mem _ hq)
        rw [List.count_eq_zero] at hq0
        simpa using hq0
      simp [List.countP_cons, hd, hnone]
    · have h0 : List.count d p = 0 := List.count_eq_zero.mpr hd
      have := ih (by omega)
      simp [List.countP_cons, hd, this]

/-- Claim C1: for every inventory and positive ceilings, a successful
run of `split_files` assigns each document of the inventory to exactly
one emitted partition — it occurs in exactly one partition and exactly
once overall (nothing dropped, nothing duplicated). -/
theorem split_files_covers_each_document_once
    {cfg : SplitConfig} {image_paths latest_paths : List (String × Nat)}
    {parts : List (List String)} {d : String}
    (_hbyte : 0 < cfg.size_limit_in_bytes) (_hpage : 0 < cfg.page_limit)
    (hnd : (latest_paths.map Prod.fst).Nodup)
    (hok : split_files cfg image_paths latest_paths = .ok parts)
    (hd : d ∈ latest_paths.map Prod.fst) :
    parts.countP (fun p => decide (d ∈ p)) = 1 ∧ parts.flatten.count d = 1 := by
  obtain ⟨st, hinv, rfl⟩ := split_files_state hnd hok
  have hflat : (st.archives ++ [st.image_names]).flatten = latest_paths.map Prod.fst := by
    rw [List.flatten_append]
    simpa using hinv.cover
  have hcount : ((st.archives ++ [st.image_names]).flatten).count d = 1 := by
    rw [hflat]
    exact List.count_eq_one_of_mem hnd hd
  refine ⟨?_, hcount⟩
  apply countP_mem_eq_one_of_flatten_count
  rw [← List.count_flatten]
  exact hcount

/-- Witness for C1 at a concrete one-document run. -/
theorem split_files_covers_each_document_once_witness :
    List.countP (fun p => decide ("a" ∈ p)) [["a"]] = 1 ∧
      List.count "a" [["a"]].flatten = 1 :=
  @split_files_covers_each_document_once ⟨1000, 10, 0⟩ [("a", 100)] [("a", 0)]
    [["a"]] "a" (by decide) (by decide) (by decide) rfl (by decide)

/-- Claim C2 is false as stated: with overhead 5, byte ceiling 10 and a
single document of total size 7 (within the ceiling on its own, so not
oversized), `split_files` emits the partition `["d"]` with
`overhead + sum = 12 ≥ 10`. -/
theorem split_files_byte_bound_counterexample :
    split_files ⟨10, 10, 5⟩ [("d", 7)] [("d", 0)] = .ok [[], ["d"]] ∧
      total_size [("d", 7)] [("d", 0)] "d" = 7 ∧ ¬ (10 < (7 : Nat)) ∧
      ¬ (5 + ((["d"]).map (total_size [("d", 7)] [("d", 0)])).sum < 10) :=
  ⟨rfl, by decide, by decide, by decide⟩

/-- Claim C2 (amended): every emitted partition holding at least two
documents satisfies `overhead + sum of total sizes < byte_ceiling`;
partitions with fewer than two documents (a lone — possibly oversized —
document, or the empty partition emitted ahead of an oversized first
document) may exceed it. -/
theorem split_files_two_doc_partition_within_ceiling
    {cfg : SplitConfig} {image_paths latest_paths : List (String × Nat)}
    {parts : List (List String)} {p : List String}
    (hnd : (latest_paths.map Prod.fst).Nodup)
    (hok : split_files cfg image_paths latest_paths = .ok parts)
    (hp : p ∈ parts) (h2 : 2 ≤ p.length) :
    cfg.start_size + (p.map (total_size image_paths latest_paths)).sum <
      cfg.size_limit_in_bytes := by
  obtain ⟨st, hinv, rfl⟩ := split_files_state hnd hok
  rcases List.mem_append.mp hp with hold | hnew
  · exact hinv.arch_lt p hold h2
  · have hpeq : p = st.image_names := by simpa using hnew
    subst hpeq
    have hlt := hinv.open_lt h2
    have hse := hinv.size_eq
    omega

/-- Witness for the amended C2 at a concrete two-document partition. -/
theorem split_files_two_doc_partition_within_ceiling_witness :
    (0 : Nat) + ((["a", "b"]).map (total_size [("a", 100), ("b", 150)]
      [("a", 0), ("b", 0)])).sum < 1000 :=
  @split_files_two_doc_partition_within_ceiling ⟨1000, 10, 0⟩
    [("a", 100), ("b", 150)] [("a", 0), ("b", 0)] [["a", "b"]] ["a", "b"]
    (by decide) rfl (by decide) (by decide)

/-- Claim C5 is false as stated: with count ceiling 0 the run on one
document emits the partition `["d"]` of length `1 > 0`. -/
theorem split_files_count_ceiling_counterexample :
    split_files ⟨1000, 0, 0⟩ [("d", 1)] [("d", 0)] = .ok [[], ["d"]] ∧
      ¬ (List.length ["d"] ≤ 0) :=
  ⟨rfl, by decide⟩

/-- Claim C5 (amended): when the count ceiling is at least one, every
partition emitted by a successful run holds at most `page_limit`
documents. -/
theorem split_files_count_ceiling_of_pos
    {cfg : SplitConfig} {image_paths latest_paths : List (String × Nat)}
    {parts : List (List String)} {p : List String}
    (hpage : 1 ≤ cfg.page_limit)
    (hnd : (latest_paths.map Prod.fst).Nodup)
    (hok : split_files cfg image_paths latest_paths = .ok parts)
    (hp : p ∈ parts) :
    p.length ≤ cfg.page_limit := by
  obtain ⟨st, hinv, rfl⟩ := split_files_state hnd hok
  rcases List.mem_append.mp hp with hold | hnew
  · exact hinv.arch_len p hold hpage
  · have hpeq : p = st.image_names := by simpa using hnew
    subst hpeq
    exact hinv.open_len hpage

/-- Witness for the amended C5 at a concrete run. -/
theorem split_files_count_ceiling_of_pos_witness :
    List.length ["a"] ≤ (10 : Nat) :=
  @split_files_count_ceiling_of_pos ⟨1000, 10, 0⟩ [("a", 100)] [("a", 0)]
    [["a"]] ["a"] (by decide) (by decide) rfl (by decide)

/-- Splitting the scanned entry list splits the fold: the state after a
prefix of the scan is the state the full scan passes through. -/
lemma splitFold_append (cfg : SplitConfig) (image_paths : List (String × Nat)) :
    ∀ (xs ys : List (String × Nat)) (st : SplitState),
      splitFold cfg image_paths (xs ++ ys) st =
        (splitFold cfg image_paths xs st).bind
          (fun st1 => splitFold cfg image_paths ys st1) := by
  intro xs
  induction xs with
  | nil =>
    intro ys st
    rfl
  | cons q xs ih =>
    intro ys st
    obtain ⟨n, l⟩ := q
    simp only [List.cons_append, splitFold]
    cases dictGet image_paths n with
    | none => rfl
    | some isize => exact ih ys _

/-- Claim C10: on a successful run, after any prefix of the inventory
has been consumed (the state at the end of each loop iteration), the
running accumulator equals the fixed overhead plus the sum of the total
sizes of exactly the documents in the open partition, each counted
once. -/
theorem split_files_accumulator_invariant
    {cfg : SplitConfig} {image_paths latest_paths : List (String × Nat)}
    {parts : List (List String)} {pre suf : List (String × Nat)}
    (hnd : (latest_paths.map Prod.fst).Nodup)
    (hok : split_files cfg image_paths latest_paths = .ok parts)
    (hdecomp : latest_paths = pre ++ suf) :
    ∃ st, splitFold cfg image_paths pre (initState cfg) = .ok st ∧
      st.image_names.Nodup ∧
      st.current_size = cfg.start_size +
        (st.image_names.map (total_size image_paths latest_paths)).sum := by
  subst hdecomp
  unfold split_files at hok
  cases hfold : splitFold cfg image_paths (pre ++ suf) (initState cfg) with
  | error e =>
    rw [hfold] at hok
    cases hok
  | ok stend =>
    rw [splitFold_append] at hfold
    cases hpre : splitFold cfg image_paths pre (initState cfg) with
    | error e =>
      rw [hpre] at hfold
      simp [Except.bind] at hfold
    | ok st =>
      have hkeys : ∀ p ∈ pre, dictGet (pre ++ suf) p.1 = some p.2 :=
        fun p hp => dictGet_eq_of_nodup hnd (List.mem_append_left _ hp)
      have hinv := splitFold_inv pre [] (initState cfg) st hkeys
        (splitInv_init cfg image_paths (pre ++ suf)) hpre
      refine ⟨st, rfl, ?_, hinv.size_eq⟩
      have hcov := hinv.cover
      rw [List.nil_append] at hcov
      have hndpre : (pre.map Prod.fst).Nodup := by
        rw [List.map_append] at hnd
        exact hnd.of_append_left
      rw [← hcov] at hndpre
      exact hndpre.of_append_right

/-- Witness for C10 after the one-entry prefix of a concrete run. -/
theorem split_files_accumulator_invariant_witness :
    ∃ st, splitFold ⟨1000, 10, 5⟩ [("a", 2)] [("a", 3)]
        (initState ⟨1000, 10, 5⟩) = .ok st ∧
      st.image_names.Nodup ∧
      st.current_size = 5 +
        (st.image_names.map (total_size [("a", 2)] [("a", 3)])).sum :=
  @split_files_accumulator_invariant ⟨1000, 10, 5⟩ [("a", 2)] [("a", 3)]
    [["a"]] [("a", 3)] [] (by decide) rfl rfl

/-- Claim C3 is false as stated: a lone document of total size 50
against byte ceiling 10 yields two emitted partitions — an empty one,
then the one holding the document — not exactly one. -/
theorem split_files_single_oversized_counterexample :
    split_files ⟨10, 10, 0⟩ [("d", 50)] [("d", 0)] = .ok [[], ["d"]] ∧
      List.length [([] : List String), ["d"]] ≠ 1 :=
  ⟨rfl, by decide⟩

/-- Claim C3 (amended): an inventory of a single document whose total
size alone exceeds the byte ceiling terminates successfully and emits
exactly two partitions: an empty leading partition and one holding only
that document — the document is never rejected. -/
theorem split_files_single_oversized_two_partitions
    {cfg : SplitConfig} {name : String} {isize lsize : Nat}
    (hover : cfg.size_limit_in_bytes < isize + lsize) :
    total_size [(name, isize)] [(name, lsize)] name = isize + lsize ∧
      split_files cfg [(name, isize)] [(name, lsize)] = .ok [[], [name]] := by
  have hpages : pagesOf [(name, isize)] name = [] := pagesOf_single_self name isize
  have hi : dictGet [(name, isize)] name = some isize := by
    simp [dictGet]
  have htot : total_size [(name, isize)] [(name, lsize)] name = isize + lsize := by
    unfold total_size
    rw [hpages, hi]
    simp [dictGet, sumSizes]
  refine ⟨htot, ?_⟩
  simp only [split_files, splitFold, hi, hpages, splitStep, initState, sumSizes,
    List.map_nil, List.sum_nil]
  split
  · rename_i hcond
    exfalso
    obtain ⟨hlt, -⟩ := hcond
    omega
  · rfl

/-- Witness for the amended C3 at a concrete oversized document. -/
theorem split_files_single_oversized_two_partitions_witness :
    total_size [("d", 50)] [("d", 0)] "d" = 50 + 0 ∧
      split_files ⟨10, 10, 0⟩ [("d", 50)] [("d", 0)] = .ok [[], ["d"]] :=
  @split_files_single_oversized_two_partitions ⟨10, 10, 0⟩ "d" 50 0 (by decide)

/-- Claim C4: the three-document scenario — totals 100, 150, 900,
overhead 0, byte ceiling 1000, count ceiling 10 — yields exactly the two
partitions `[d1, d2]` and `[d3]`. -/
theorem split_files_scenario_100_150_900 :
    total_size [("d1", 100), ("d2", 150), ("d3", 900)]
        [("d1", 0), ("d2", 0), ("d3", 0)] "d1" = 100 ∧
      total_size [("d1", 100), ("d2", 150), ("d3", 900)]
        [("d1", 0), ("d2", 0), ("d3", 0)] "d2" = 150 ∧
      total_size [("d1", 100), ("d2", 150), ("d3", 900)]
        [("d1", 0), ("d2", 0), ("d3", 0)] "d3" = 900 ∧
      split_files ⟨1000, 10, 0⟩ [("d1", 100), ("d2", 150), ("d3", 900)]
        [("d1", 0), ("d2", 0), ("d3", 0)] = .ok [["d1", "d2"], ["d3"]] :=
  ⟨by decide, by decide, by decide, rfl⟩

/-- Every file name of the claimed exact page shape starts with the
document name. -/
lemma specExact_starts_with_doc {d x : String} (h : SpecExactPageName d x) :
    d.data.isPrefixOf x.data = true := by
  obtain ⟨ds, -, -, heq⟩ := h
  exact (isPrefixOf_iff_append _ _).mpr ⟨_, heq⟩

/-- Claim C6 is false as stated: the unanchored `re.search` lets the
file `abc.pdf_1.jpg` be attached as a page of document `bc.pdf`, whose
name it merely contains with an extra leading character — the file name
is not of the exact `<doc>_<num>.jpg` shape for that document. -/
theorem get_pages_attaches_shifted_name_counterexample :
    get_pages_by_documents [("bc.pdf", 0)] [("abc.pdf_1.jpg", 7)] =
      [("bc.pdf", [("abc.pdf_1.jpg", 7)])] ∧
      ¬ SpecExactPageName "bc.pdf" "abc.pdf_1.jpg" := by
  refine ⟨rfl, ?_⟩
  intro h
  exact absurd (specExact_starts_with_doc h) (by decide)

/-- Claim C6 (amended): a primary file is attached as a continuation
page of a document exactly when the document's extension is in the
multi-page allow-list, the file is in the primary inventory, and the
file name contains the document name followed by an underscore, a page
number, one further character and `jpg` — the underscore anchors the
right end of the document name (so document `abc` cannot swallow pages
of `abc2`), but extra leading characters are accepted. -/
theorem get_pages_attachment_characterization
    {latest_paths image_paths : List (String × Nat)} {d : String}
    {pages : List (String × Nat)}
    (hmem : (d, pages) ∈ get_pages_by_documents latest_paths image_paths)
    (x : String) (s : Nat) :
    (x, s) ∈ pages ↔
      ((x, s) ∈ image_paths ∧ extOf d ∈ PAGE_EXTENSIONS ∧ PageMatch d x) := by
  obtain ⟨⟨d0, l0⟩, hd0, heq⟩ := List.mem_map.mp hmem
  injection heq with h1 h2
  subst h1
  subst h2
  unfold pagesOf
  split
  · rename_i hext
    rw [List.mem_filter]
    constructor
    · rintro ⟨hmem2, hps⟩
      exact ⟨hmem2, hext, (pageSearch_iff _ _).mp hps⟩
    · rintro ⟨hmem2, -, hpm⟩
      exact ⟨hmem2, (pageSearch_iff _ _).mpr hpm⟩
  · rename_i hext
    simp only [List.not_mem_nil, false_iff]
    rintro ⟨-, hext2, -⟩
    exact hext hext2

/-- Witness for the amended C6 at a concrete attachment. -/
theorem get_pages_attachment_characterization_witness :
    ("d.pdf_1.jpg", 3) ∈ [("d.pdf_1.jpg", 3)] ↔
      (("d.pdf_1.jpg", 3) ∈ [("d.pdf_1.jpg", 3)] ∧
        extOf "d.pdf" ∈ PAGE_EXTENSIONS ∧ PageMatch "d.pdf" "d.pdf_1.jpg") :=
  @get_pages_attachment_characterization [("d.pdf", 0)] [("d.pdf_1.jpg", 3)]
    "d.pdf" [("d.pdf_1.jpg", 3)] (by decide) "d.pdf_1.jpg" 3

/-- Claim C7 is false as stated: with the primary files enumerated as
`d.pdf_10.jpg` then `d.pdf_2.jpg`, both pages are attached in that
enumeration order, whose page numbers `[10, 2]` are not ascending. -/
theorem get_pages_order_counterexample :
    get_pages_by_documents [("d.pdf", 0)]
        [("d.pdf_10.jpg", 1), ("d.pdf_2.jpg", 2)] =
      [("d.pdf", [("d.pdf_10.jpg", 1), ("d.pdf_2.jpg", 2)])] ∧
      List.map (fun p => pageNumOf "d.pdf" p.1)
        [("d.pdf_10.jpg", 1), ("d.pdf_2.jpg", 2)] = [10, 2] ∧
      ¬ List.Sorted (fun a b : Nat => a ≤ b) [10, 2] :=
  ⟨rfl, by decide, by decide⟩

/-- Claim C7 (amended): the continuation-page list of a document is a
sublist of the primary-file inventory — the pages appear in the order
the primary files are enumerated, not sorted by page number. -/
theorem get_pages_preserves_enumeration_order
    {latest_paths image_paths : List (String × Nat)} {d : String}
    {pages : List (String × Nat)}
    (hmem : (d, pages) ∈ get_pages_by_documents latest_paths image_paths) :
    List.Sublist pages image_paths := by
  obtain ⟨⟨d0, l0⟩, hd0, heq⟩ := List.mem_map.mp hmem
  injection heq with h1 h2
  subst h1
  subst h2
  unfold pagesOf
  split
  · exact List.filter_sublist _
  · exact List.nil_sublist _

/-- Witness for the amended C7 at a concrete inventory. -/
theorem get_pages_preserves_enumeration_order_witness :
    List.Sublist [("d.pdf_1.jpg", 3)] [("x.png", 1), ("d.pdf_1.jpg", 3)] :=
  @get_pages_preserves_enumeration_order [("d.pdf", 0)]
    [("x.png", 1), ("d.pdf_1.jpg", 3)] "d.pdf" [("d.pdf_1.jpg", 3)] (by decide)

/-- The appending loop of the manifest filter is `List.filter`. -/
lemma foldl_append_filter (images : List String) :
    ∀ (rows : List (String × String)) (acc : List (String × String)),
      rows.foldl (fun acc row => if row.1 ∈ images then acc ++ [row] else acc) acc =
        acc ++ rows.filter (fun r => decide (r.1 ∈ images)) := by
  intro rows
  induction rows with
  | nil =>
    intro acc
    simp
  | cons r rows ih =>
    intro acc
    by_cases h : r.1 ∈ images <;>
      simp [ih, h, List.filter_cons, List.append_assoc]

/-- Claim C8: filtering a split manifest keeps the header verbatim and
keeps exactly the data rows whose document name is in the given set, in
the original row order; all other rows are omitted. -/
theorem process_split_filters_rows (images : List String) (m : SplitManifest) :
    (process_split_file_one_archive images m).header = m.header ∧
      (process_split_file_one_archive images m).rows =
        m.rows.filter (fun r => decide (r.1 ∈ images)) := by
  refine ⟨rfl, ?_⟩
  unfold process_split_file_one_archive
  simpa using foldl_append_filter images m.rows []

/-- A scan whose remaining entries contain a document with no matching
primary file fails. -/
lemma splitFold_error_of_missing {cfg : SplitConfig}
    {image_paths : List (String × Nat)} :
    ∀ (rest : List (String × Nat)) (st : SplitState),
      (∃ p ∈ rest, dictGet image_paths p.1 = none) →
      ∃ e, splitFold cfg image_paths rest st = .error e := by
  intro rest
  induction rest with
  | nil =>
    rintro st ⟨p, hp, -⟩
    cases hp
  | cons q rest ih =>
    rintro st ⟨p, hp, hnone⟩
    obtain ⟨n, l⟩ := q
    cases hi : dictGet image_paths n with
    | none => exact ⟨n, by simp [splitFold, hi]⟩
    | some isize =>
      rcases List.mem_cons.mp hp with rfl | hp'
      · rw [hi] at hnone
        cases hnone
      · obtain ⟨e, he⟩ := ih
          (splitStep cfg st n (isize + l + sumSizes (pagesOf image_paths n)))
          ⟨p, hp', hnone⟩
        exact ⟨e, by simp [splitFold, hi, he]⟩

/-- Claim C9: when some metadata entry of the inventory has no matching
primary file, `split_files` raises an error (the `KeyError` of
`image_paths[image_name]`) instead of silently skipping the entry. -/
theorem split_files_missing_image_errors
    {cfg : SplitConfig} {image_paths latest_paths : List (String × Nat)}
    {name : String} {lsize : Nat}
    (hmem : (name, lsize) ∈ latest_paths)
    (hnone : dictGet image_paths name = none) :
    ∃ e, split_files cfg image_paths latest_paths = .error e := by
  obtain ⟨e, he⟩ := @splitFold_error_of_missing cfg image_paths latest_paths
    (initState cfg) ⟨(name, lsize), hmem, hnone⟩
  exact ⟨e, by simp [split_files, he, Except.map]⟩

/-- Witness for C9 at a concrete inventory with no primary files. -/
theorem split_files_missing_image_errors_witness :
    ∃ e, split_files ⟨1000, 10, 0⟩ [] [("d", 0)] = .error e :=
  @split_files_missing_image_errors ⟨1000, 10, 0⟩ [] [("d", 0)] "d" 0
    (by decide) rfl

end SplitZip
